import Mathlib

/-!
Verification of the expense aggregation-and-settlement engine of the
wems-server repository (src/app.py), against its natural-language
specification.

The numeric type of the embedding is `ℚ`: the spec stipulates exact
decimal arithmetic for the core, and all claims are stated up to
floating/decimal rounding.  Python dictionaries are embedded as ordered
association lists (`List (String × β)`): Python dicts preserve insertion
order, assignment to a fresh key appends it at the end, and assignment
to an existing key updates it in place.  Person references are embedded
by their string ids (`str(roommate.id)` in the source); display names,
which the source copies into output records purely for presentation, are
elided from settlement transfers and report entries where they play no
computational role.
-/

namespace Wems

/-- A Python dict with string keys and values in `β`, as an ordered
association list. -/
abbrev Dict (β : Type) := List (String × β)

/-- A balance/spending/consumption dictionary: person id or item name to
amount. -/
abbrev Bal := Dict ℚ

/-- `d.get(k, 0)` / `d[k]` on a numeric dict: value of the first entry
with key `k`, and `0` when `k` is absent. -/
def lookupBal : Bal → String → ℚ
  | [], _ => 0
  | (k', v) :: m, k => if k = k' then v else lookupBal m k

/-- `d[k] = v` on a Python dict: update the (first) entry with key `k`
in place, or append a fresh entry at the end when `k` is absent. -/
def setBal : Bal → String → ℚ → Bal
  | [], k, v => [(k, v)]
  | (k', v') :: m, k, v => if k = k' then (k', v) :: m else (k', v') :: setBal m k v

/-- Total of the values of a dict. -/
def sumBal (m : Bal) : ℚ := (m.map Prod.snd).sum

theorem lookupBal_eq_zero_of_not_mem {m : Bal} {k : String}
    (h : k ∉ m.map Prod.fst) : lookupBal m k = 0 := by
  induction m with
  | nil => rfl
  | cons p m ih =>
    simp only [List.map_cons, List.mem_cons, not_or] at h
    simp only [lookupBal, if_neg h.1, ih h.2]

theorem lookupBal_setBal_self (m : Bal) (k : String) (v : ℚ) :
    lookupBal (setBal m k v) k = v := by
  induction m with
  | nil => simp [setBal, lookupBal]
  | cons p m ih =>
    obtain ⟨k', v'⟩ := p
    by_cases h : k = k'
    · simp [setBal, lookupBal, h]
    · simp [setBal, lookupBal, h, ih]

theorem lookupBal_setBal_ne (m : Bal) {k x : String} (v : ℚ) (h : x ≠ k) :
    lookupBal (setBal m k v) x = lookupBal m x := by
  induction m with
  | nil => simp [setBal, lookupBal, h]
  | cons p m ih =>
    obtain ⟨k', v'⟩ := p
    by_cases hk : k = k'
    · subst hk
      simp [setBal, lookupBal, if_neg h]
    · by_cases hx : x = k'
      · simp [setBal, lookupBal, hk, hx]
      · simp [setBal, lookupBal, hk, hx, ih]

theorem sumBal_setBal (m : Bal) (k : String) (v : ℚ) :
    sumBal (setBal m k v) = sumBal m - lookupBal m k + v := by
  induction m with
  | nil => simp [setBal, sumBal, lookupBal]
  | cons p m ih =>
    obtain ⟨k', v'⟩ := p
    by_cases h : k = k'
    · simp [setBal, sumBal, lookupBal, h]
      ring
    · simp only [setBal, if_neg h, sumBal, List.map_cons, List.sum_cons, lookupBal]
      have := ih
      simp only [sumBal] at this
      rw [this]
      ring

theorem keys_setBal_of_mem {m : Bal} {k : String} (v : ℚ)
    (h : k ∈ m.map Prod.fst) :
    (setBal m k v).map Prod.fst = m.map Prod.fst := by
  induction m with
  | nil => simp at h
  | cons p m ih =>
    obtain ⟨k', v'⟩ := p
    by_cases hk : k = k'
    · simp [setBal, hk]
    · simp only [List.map_cons, List.mem_cons] at h
      rcases h with h | h


      · exact absurd h hk
      · simp [setBal, hk, ih h]

theorem keys_setBal_subset (m : Bal) (k : String) (v : ℚ) :
    ∀ x ∈ (setBal m k v).map Prod.fst, x ∈ m.map Prod.fst ∨ x = k := by
  induction m with
  | nil =>
    intro x hx
    simp only [setBal, List.map_cons, List.map_nil, List.mem_singleton] at hx
    exact Or.inr hx
  | cons p m ih =>
    obtain ⟨k', v'⟩ := p
    intro x hx
    by_cases hk : k = k'
    · subst hk
      simp only [setBal, if_pos rfl, List.map_cons] at hx
      exact Or.inl hx
    · simp only [setBal, if_neg hk, List.map_cons, List.mem_cons] at hx
      rcases hx with h | h
      · exact Or.inl (by simp [h])
      · rcases ih x h with h' | h'
        · exact Or.inl (by simp [h'])
        · exact Or.inr h'

theorem mem_keys_setBal (m : Bal) (k : String) (v : ℚ) :
    k ∈ (setBal m k v).map Prod.fst := by
  induction m with
  | nil => simp [setBal]
  | cons p m ih =>
    obtain ⟨k', v'⟩ := p
    by_cases hk : k = k'
    · simp [setBal, hk]
    · simp only [setBal, if_neg hk, List.map_cons, List.mem_cons]
      exact Or.inr ih

theorem mem_keys_setBal_of_mem {m : Bal} {x : String} (k : String) (v : ℚ)
    (h : x ∈ m.map Prod.fst) : x ∈ (setBal m k v).map Prod.fst := by
  induction m with
  | nil => simp at h
  | cons p m ih =>
    obtain ⟨k', v'⟩ := p
    by_cases hk : k = k'
    · simpa [setBal, hk] using h
    · simp only [List.map_cons, List.mem_cons] at h
      rcases h with h | h
      · simp [setBal, hk, h]
      · simp only [setBal, if_neg hk, List.map_cons, List.mem_cons]
        exact Or.inr (ih h)

theorem nodup_keys_setBal {m : Bal} (k : String) (v : ℚ)
    (h : (m.map Prod.fst).Nodup) : ((setBal m k v).map Prod.fst).Nodup := by
  induction m with
  | nil => simp [setBal]
  | cons p m ih =>
    obtain ⟨k', v'⟩ := p
    simp only [List.map_cons, List.nodup_cons] at h
    by_cases hk : k = k'
    · simp only [setBal, if_pos hk, List.map_cons, List.nodup_cons]
      exact ⟨h.1, h.2⟩
    · simp only [setBal, if_neg hk, List.map_cons, List.nodup_cons]
      refine ⟨fun hmem => ?_, ih h.2⟩
      rcases keys_setBal_subset m k v k' hmem with h' | h'
      · exact h.1 h'
      · exact hk h'.symm

theorem lookupBal_mem_of_nodup {m : Bal} {k : String} {v : ℚ}
    (hnd : (m.map Prod.fst).Nodup) (h : (k, v) ∈ m) : lookupBal m k = v := by
  induction m with
  | nil => simp at h
  | cons p m ih =>
    obtain ⟨k', v'⟩ := p
    simp only [List.map_cons, List.nodup_cons] at hnd
    rcases List.mem_cons.mp h with hm | hm
    · cases hm
      simp [lookupBal]
    · have hk : k ≠ k' := by
        rintro rfl
        exact hnd.1 (List.mem_map_of_mem Prod.fst hm)
      simp [lookupBal, hk, ih hnd.2 hm]

theorem mem_of_lookupBal {m : Bal} {k : String}
    (h : k ∈ m.map Prod.fst) : (k, lookupBal m k) ∈ m := by
  induction m with
  | nil => simp at h
  | cons p m ih =>
    obtain ⟨k', v'⟩ := p
    by_cases hk : k = k'
    · simp [lookupBal, hk]
    · simp only [List.map_cons, List.mem_cons] at h
      rcases h with h | h
      · exact absurd h hk
      · simp only [lookupBal, if_neg hk, List.mem_cons]
        exact Or.inr (ih h)

/-- A settlement step: `debtor` pays `creditor` `amount`.  The source
records this pair as an `owed_by` entry on the creditor's report record
and an `owes_to` entry on the debtor's (person referenced by display
name there; the id is used here). -/
structure Transfer where
  debtor : String
  creditor : String
  amount : ℚ
deriving DecidableEq

/-- The inner loop of the settlement pass in `weekly_report`
(src/app.py lines 238-252), for the creditor `cid` whose balance read at
the start of its outer iteration was `b`:

    for other_id, other_balance in balances.items():
        if other_id != roommate_id and other_balance < 0:
            amount = min(balance, -other_balance)
            ... append owed_by / owes_to records ...
            balances[roommate_id] -= amount
            balances[other_id] += amount
            if balances[roommate_id] == 0:
                break

Note that `balance` (here `b`) is the value bound by the *outer* `for`
statement: it is not updated by `balances[roommate_id] -= amount`, so
later iterations of the inner loop keep using the stale value.  The
dict is iterated by its (fixed) key sequence `ks`, reading each value
live. -/
def innerUpd (st : Bal) (cid k : String) (amount : ℚ) : Bal :=
  setBal (setBal st cid (lookupBal st cid - amount)) k (lookupBal st k + amount)

def innerVisit (cid : String) (b : ℚ) : List String → Bal → List Transfer × Bal
  | [], st => ([], st)
  | k :: ks, st =>
    if k ≠ cid ∧ lookupBal st k < 0 then
      let amount := min b (-(lookupBal st k))
      let st1 := innerUpd st cid k amount
      if lookupBal st1 cid = 0 then ([⟨k, cid, amount⟩], st1)
      else
        let r := innerVisit cid b ks st1
        (⟨k, cid, amount⟩ :: r.1, r.2)
    else innerVisit cid b ks st

theorem lookupBal_innerUpd_k (st : Bal) {cid k : String} (a : ℚ) :
    lookupBal (innerUpd st cid k a) k = lookupBal st k + a := by
  simp only [innerUpd, lookupBal_setBal_self]

theorem lookupBal_innerUpd_cid (st : Bal) {cid k : String} (a : ℚ)
    (h : k ≠ cid) : lookupBal (innerUpd st cid k a) cid = lookupBal st cid - a := by
  simp only [innerUpd]
  rw [lookupBal_setBal_ne _ _ (Ne.symm h), lookupBal_setBal_self]

theorem lookupBal_innerUpd_other (st : Bal) {cid k j : String} (a : ℚ)
    (h1 : j ≠ cid) (h2 : j ≠ k) :
    lookupBal (innerUpd st cid k a) j = lookupBal st j := by
  simp only [innerUpd]
  rw [lookupBal_setBal_ne _ _ h2, lookupBal_setBal_ne _ _ h1]

theorem sumBal_innerUpd (st : Bal) {cid k : String} (a : ℚ) (h : k ≠ cid) :
    sumBal (innerUpd st cid k a) = sumBal st := by
  simp only [innerUpd, sumBal_setBal, lookupBal_setBal_ne st _ h]
  ring

theorem nodup_keys_innerUpd (st : Bal) (cid k : String) (a : ℚ)
    (h : (st.map Prod.fst).Nodup) :
    ((innerUpd st cid k a).map Prod.fst).Nodup :=
  nodup_keys_setBal _ _ (nodup_keys_setBal _ _ h)

/-- The outer loop of the settlement pass (src/app.py lines 236-252):

    for roommate_id, balance in balances.items():
        if balance > 0:
            ... inner loop ...

`allKeys` is the fixed key sequence of the dict (keys are never added
during the pass), `os` the keys still to be visited by the outer loop;
each outer iteration reads the current value of its key. -/
def outerLoop (allKeys : List String) : List String → Bal → List Transfer × Bal
  | [], st => ([], st)
  | k :: os, st =>
    if 0 < lookupBal st k then
      let r1 := innerVisit k (lookupBal st k) allKeys st
      let r2 := outerLoop allKeys os r1.2
      (r1.1 ++ r2.1, r2.2)
    else outerLoop allKeys os st

/-- The complete settlement pass over a balance dict: the transfer
sequence it emits together with the final state of the dict. -/
def settle (st : Bal) : List Transfer × Bal :=
  outerLoop (st.map Prod.fst) (st.map Prod.fst) st

/-- Replay semantics of a transfer, as the spec states it: subtract the
amount from the creditor's balance and add it to the debtor's. -/
def applyTransfer (st : Bal) (t : Transfer) : Bal :=
  let st1 := setBal st t.creditor (lookupBal st t.creditor - t.amount)
  setBal st1 t.debtor (lookupBal st1 t.debtor + t.amount)

/-- Replay a transfer sequence, in order, against a balance dict. -/
def replay (st : Bal) (ts : List Transfer) : Bal := ts.foldl applyTransfer st

theorem replay_append (st : Bal) (ts1 ts2 : List Transfer) :
    replay st (ts1 ++ ts2) = replay (replay st ts1) ts2 :=
  List.foldl_append ..

/-- The state update performed by the inner loop body is exactly the
replay of the transfer it emits. -/
theorem innerVisit_replay (cid : String) (b : ℚ) :
    ∀ (ks : List String) (st : Bal),
      replay st (innerVisit cid b ks st).1 = (innerVisit cid b ks st).2 := by
  intro ks
  induction ks with
  | nil => intro st; rfl
  | cons k ks ih =>
    intro st
    by_cases hg : k ≠ cid ∧ lookupBal st k < 0
    · simp only [innerVisit, if_pos hg]
      have happ : applyTransfer st ⟨k, cid, min b (-(lookupBal st k))⟩ =
          innerUpd st cid k (min b (-(lookupBal st k))) := by
        simp only [applyTransfer, innerUpd]
        rw [lookupBal_setBal_ne st _ hg.1]
      by_cases hz : lookupBal (innerUpd st cid k (min b (-(lookupBal st k)))) cid = 0
      · simp only [if_pos hz, replay, List.foldl_cons, List.foldl_nil, happ]
      · simp only [if_neg hz, replay, List.foldl_cons, happ]
        exact ih _
    · simp only [innerVisit, if_neg hg]
      exact ih st

/-- The state update performed by the settlement pass is exactly the
replay of the transfer sequence it emits. -/
theorem outerLoop_replay (allKeys : List String) :
    ∀ (os : List String) (st : Bal),
      replay st (outerLoop allKeys os st).1 = (outerLoop allKeys os st).2 := by
  intro os
  induction os with
  | nil => intro st; rfl
  | cons k os ih =>
    intro st
    by_cases hg : 0 < lookupBal st k
    · simp only [outerLoop, if_pos hg, replay_append,
        innerVisit_replay k (lookupBal st k) allKeys st]
      exact ih _
    · simp only [outerLoop, if_neg hg]
      exact ih st

theorem settle_replay (st : Bal) :
    replay st (settle st).1 = (settle st).2 :=
  outerLoop_replay ..

/-- Every transfer emitted by the inner loop names the visited creditor
and a debtor distinct from it. -/
theorem innerVisit_transfer_shape (cid : String) (b : ℚ) :
    ∀ (ks : List String) (st : Bal), ∀ t ∈ (innerVisit cid b ks st).1,
      t.creditor = cid ∧ t.debtor ≠ cid := by
  intro ks
  induction ks with
  | nil => intro st t ht; simp [innerVisit] at ht
  | cons k ks ih =>
    intro st t ht
    by_cases hg : k ≠ cid ∧ lookupBal st k < 0
    · simp only [innerVisit, if_pos hg] at ht
      by_cases hz : lookupBal (innerUpd st cid k (min b (-(lookupBal st k)))) cid = 0
      · simp only [if_pos hz, List.mem_singleton] at ht
        subst ht
        exact ⟨rfl, hg.1⟩
      · simp only [if_neg hz, List.mem_cons] at ht
        rcases ht with ht | ht
        · subst ht
          exact ⟨rfl, hg.1⟩
        · exact ih _ t ht
    · simp only [innerVisit, if_neg hg] at ht
      exact ih st t ht

/-- The inner loop preserves the total of the balance dict. -/
theorem innerVisit_sum (cid : String) (b : ℚ) :
    ∀ (ks : List String) (st : Bal),
      sumBal (innerVisit cid b ks st).2 = sumBal st := by
  intro ks
  induction ks with
  | nil => intro st; rfl
  | cons k ks ih =>
    intro st
    by_cases hg : k ≠ cid ∧ lookupBal st k < 0
    · simp only [innerVisit, if_pos hg]
      have hsum : sumBal (innerUpd st cid k (min b (-(lookupBal st k)))) = sumBal st :=
        sumBal_innerUpd st _ hg.1
      by_cases hz : lookupBal (innerUpd st cid k (min b (-(lookupBal st k)))) cid = 0
      · simpa only [if_pos hz] using hsum
      · simp only [if_neg hz]
        rw [ih, hsum]
    · simp only [innerVisit, if_neg hg]
      exact ih st

/-- The settlement pass preserves the total of the balance dict. -/
theorem outerLoop_sum (allKeys : List String) :
    ∀ (os : List String) (st : Bal),
      sumBal (outerLoop allKeys os st).2 = sumBal st := by
  intro os
  induction os with
  | nil => intro st; rfl
  | cons k os ih =>
    intro st
    by_cases hg : 0 < lookupBal st k
    · simp only [outerLoop, if_pos hg]
      rw [ih, innerVisit_sum]
    · simp only [outerLoop, if_neg hg]
      exact ih st

/-- The inner loop preserves distinctness of the dict's keys. -/
theorem innerVisit_nodup (cid : String) (b : ℚ) :
    ∀ (ks : List String) (st : Bal), (st.map Prod.fst).Nodup →
      (((innerVisit cid b ks st).2).map Prod.fst).Nodup := by
  intro ks
  induction ks with
  | nil => intro st h; exact h
  | cons k ks ih =>
    intro st h
    by_cases hg : k ≠ cid ∧ lookupBal st k < 0
    · simp only [innerVisit, if_pos hg]
      have h1 : ((innerUpd st cid k (min b (-(lookupBal st k)))).map Prod.fst).Nodup :=
        nodup_keys_innerUpd st cid k _ h
      by_cases hz : lookupBal (innerUpd st cid k (min b (-(lookupBal st k)))) cid = 0
      · simpa only [if_pos hz] using h1
      · simp only [if_neg hz]
        exact ih _ h1
    · simp only [innerVisit, if_neg hg]
      exact ih st h

/-- The settlement pass preserves distinctness of the dict's keys. -/
theorem outerLoop_nodup (allKeys : List String) :
    ∀ (os : List String) (st : Bal), (st.map Prod.fst).Nodup →
      (((outerLoop allKeys os st).2).map Prod.fst).Nodup := by
  intro os
  induction os with
  | nil => intro st h; exact h
  | cons k os ih =>
    intro st h
    by_cases hg : 0 < lookupBal st k
    · simp only [outerLoop, if_pos hg]
      exact ih _ (innerVisit_nodup _ _ _ _ h)
    · simp only [outerLoop, if_neg hg]
      exact ih st h

/-- Within one inner sweep the creditor's live balance never increases:
every update subtracts a positive amount from it. -/
theorem innerVisit_cid_mono (cid : String) {b : ℚ} (hb : 0 < b) :
    ∀ (ks : List String) (st : Bal),
      lookupBal (innerVisit cid b ks st).2 cid ≤ lookupBal st cid := by
  intro ks
  induction ks with
  | nil => intro st; exact le_refl _
  | cons k ks ih =>
    intro st
    by_cases hg : k ≠ cid ∧ lookupBal st k < 0
    · simp only [innerVisit, if_pos hg]
      have ha : 0 < min b (-(lookupBal st k)) := lt_min hb (by linarith [hg.2])
      have hcid : lookupBal (innerUpd st cid k (min b (-(lookupBal st k)))) cid =
          lookupBal st cid - min b (-(lookupBal st k)) :=
        lookupBal_innerUpd_cid st _ hg.1
      by_cases hz : lookupBal (innerUpd st cid k (min b (-(lookupBal st k)))) cid = 0
      · simp only [if_pos hz]
        rw [hcid]
        linarith
      · simp only [if_neg hz]
        calc lookupBal (innerVisit cid b ks (innerUpd st cid k
              (min b (-(lookupBal st k))))).2 cid
            ≤ lookupBal (innerUpd st cid k (min b (-(lookupBal st k)))) cid := ih _
          _ ≤ lookupBal st cid := by rw [hcid]; linarith
    · simp only [innerVisit, if_neg hg]
      exact ih st

/-- The inner sweep never turns a nonpositive balance positive: the
creditor's balance only decreases, and a visited debtor ends at
`min(old + b, 0) ≤ 0`. -/
theorem innerVisit_no_new_pos (cid : String) {b : ℚ} (hb : 0 < b) :
    ∀ (ks : List String) (st : Bal) (j : String),
      0 < lookupBal (innerVisit cid b ks st).2 j → 0 < lookupBal st j := by
  intro ks
  induction ks with
  | nil => intro st j h; exact h
  | cons k ks ih =>
    intro st j h
    by_cases hg : k ≠ cid ∧ lookupBal st k < 0
    · simp only [innerVisit, if_pos hg] at h
      have hstep : ∀ i, 0 < lookupBal (innerUpd st cid k
          (min b (-(lookupBal st k)))) i → 0 < lookupBal st i := by
        intro i hi
        by_cases hik : i = k
        · subst hik
          rw [lookupBal_innerUpd_k] at hi
          have : min b (-(lookupBal st i)) ≤ -(lookupBal st i) := min_le_right _ _
          linarith
        · by_cases hic : i = cid
          · subst hic
            rw [lookupBal_innerUpd_cid st _ hg.1] at hi
            have : 0 < min b (-(lookupBal st k)) := lt_min hb (by linarith [hg.2])
            linarith
          · rwa [lookupBal_innerUpd_other st _ hic hik] at hi
      by_cases hz : lookupBal (innerUpd st cid k (min b (-(lookupBal st k)))) cid = 0
      · simp only [if_pos hz] at h
        exact hstep j h
      · simp only [if_neg hz] at h
        exact hstep j (ih _ j h)
    · simp only [innerVisit, if_neg hg] at h
      exact ih st j h

/-- When no balance is negative the inner sweep does nothing. -/
theorem innerVisit_noop (cid : String) (b : ℚ) :
    ∀ (ks : List String) (st : Bal), (∀ j, 0 ≤ lookupBal st j) →
      innerVisit cid b ks st = ([], st) := by
  intro ks
  induction ks with
  | nil => intro st _; rfl
  | cons k ks ih =>
    intro st hpos
    have hg : ¬(k ≠ cid ∧ lookupBal st k < 0) := by
      rintro ⟨-, hneg⟩
      exact absurd hneg (not_lt.mpr (hpos k))
    simp only [innerVisit, if_neg hg]
    exact ih st hpos

/-- Keys neither visited by the sweep nor equal to the creditor keep
their balance. -/
theorem innerVisit_untouched (cid : String) (b : ℚ) :
    ∀ (ks : List String) (st : Bal) (j : String), j ≠ cid → j ∉ ks →
      lookupBal (innerVisit cid b ks st).2 j = lookupBal st j := by
  intro ks
  induction ks with
  | nil => intro st j _ _; rfl
  | cons k ks ih =>
    intro st j hjc hjk
    have hjk1 : j ≠ k := fun h => hjk (h ▸ List.mem_cons_self k ks)
    have hjk2 : j ∉ ks := fun h => hjk (List.mem_cons_of_mem k h)
    by_cases hg : k ≠ cid ∧ lookupBal st k < 0
    · simp only [innerVisit, if_pos hg]
      have huntouched : lookupBal (innerUpd st cid k
          (min b (-(lookupBal st k)))) j = lookupBal st j :=
        lookupBal_innerUpd_other st _ hjc hjk1
      by_cases hz : lookupBal (innerUpd st cid k (min b (-(lookupBal st k)))) cid = 0
      · simp only [if_pos hz]
        exact huntouched
      · simp only [if_neg hz]
        rw [ih _ j hjc hjk2, huntouched]
    · simp only [innerVisit, if_neg hg]
      exact ih st j hjc hjk2

/-- Core property of one inner sweep: if the creditor's balance is
still positive when the sweep ends, the sweep has paid off every
debtor, so no balance is negative any more.  `b` is the stale balance
read by the outer loop, so `lookupBal st cid ≤ b` holds at the start
of the sweep and is maintained. -/
theorem innerVisit_main (cid : String) {b : ℚ} (hb : 0 < b) :
    ∀ (ks : List String) (st : Bal), lookupBal st cid ≤ b →
      (∀ j, lookupBal st j < 0 → j ∈ ks ∨ j = cid) →
      0 < lookupBal (innerVisit cid b ks st).2 cid →
      ∀ j, 0 ≤ lookupBal (innerVisit cid b ks st).2 j := by
  intro ks
  induction ks with
  | nil =>
    intro st _ hneg hpos j
    by_contra hj
    have : j = cid := by
      rcases hneg j (lt_of_not_ge hj) with h | h
      · simp at h
      · exact h
    subst this
    simp only [innerVisit] at hpos
    exact hj (le_of_lt hpos)
  | cons k ks ih =>
    intro st hle hneg hpos j
    by_cases hg : k ≠ cid ∧ lookupBal st k < 0
    · have ha : 0 < min b (-(lookupBal st k)) := lt_min hb (by linarith [hg.2])
      by_cases hz : lookupBal (innerUpd st cid k (min b (-(lookupBal st k)))) cid = 0
      · -- the loop breaks with the creditor exactly at zero, so the
        -- assumed positive final creditor balance is contradictory
        exfalso
        simp only [innerVisit, if_pos hg, if_pos hz] at hpos
        rw [hz] at hpos
        exact lt_irrefl 0 hpos
      · simp only [innerVisit, if_pos hg, if_neg hz] at hpos ⊢
        by_cases hbig : b < -(lookupBal st k)
        · -- a debtor larger than the stale balance absorbs all of it:
          -- the creditor's balance drops to `≤ 0` and stays there
          exfalso
          have hmin : min b (-(lookupBal st k)) = b := min_eq_left (le_of_lt hbig)
          have hcid : lookupBal (innerUpd st cid k (min b (-(lookupBal st k)))) cid ≤ 0 := by
            rw [lookupBal_innerUpd_cid st _ hg.1, hmin]
            linarith
          have := innerVisit_cid_mono cid hb ks (innerUpd st cid k
            (min b (-(lookupBal st k))))
          linarith
        · -- the visited debtor is paid off exactly
          have hmin : min b (-(lookupBal st k)) = -(lookupBal st k) :=
            min_eq_right (le_of_not_lt hbig)
          have hk0 : lookupBal (innerUpd st cid k (min b (-(lookupBal st k)))) k = 0 := by
            rw [lookupBal_innerUpd_k, hmin]
            ring
          refine ih _ ?_ ?_ hpos j
          · rw [lookupBal_innerUpd_cid st _ hg.1]
            linarith
          · intro i hi
            by_cases hik : i = k
            · subst hik
              rw [hk0] at hi
              exact absurd hi (lt_irrefl 0)
            · by_cases hic : i = cid
              · exact Or.inr hic
              · rw [lookupBal_innerUpd_other st _ hic hik] at hi
                rcases hneg i hi with h | h
                · rcases List.mem_cons.mp h with h' | h'
                  · exact absurd h' hik
                  · exact Or.inl h'
                · exact Or.inr h
    · simp only [innerVisit, if_neg hg] at hpos ⊢
      refine ih st hle ?_ hpos j
      intro i hi
      rcases hneg i hi with h | h
      · rcases List.mem_cons.mp h with h' | h'
        · by_cases hic : i = cid
          · exact Or.inr hic
          · exfalso
            push_neg at hg
            rw [h'] at hi hic
            exact absurd hi (not_lt.mpr (hg hic))
        · exact Or.inl h'
      · exact Or.inr h

/-- When no balance is negative the rest of the settlement pass does
nothing. -/
theorem outerLoop_noop (allKeys : List String) :
    ∀ (os : List String) (st : Bal), (∀ j, 0 ≤ lookupBal st j) →
      outerLoop allKeys os st = ([], st) := by
  intro os
  induction os with
  | nil => intro st _; rfl
  | cons k os ih =>
    intro st hpos
    by_cases hg : 0 < lookupBal st k
    · simp only [outerLoop, if_pos hg, innerVisit_noop k _ allKeys st hpos]
      rw [ih st hpos]
      rfl
    · simp only [outerLoop, if_neg hg]
      exact ih st hpos

/-- Core property of the settlement pass: if any balance is still
positive when the pass ends, then no balance is negative.  `allKeys`
must contain every key with a nonzero balance, and the keys still to
be visited must contain every key with a positive balance. -/
theorem outerLoop_main (allKeys : List String) :
    ∀ (os : List String) (st : Bal),
      (∀ j, lookupBal st j ≠ 0 → j ∈ allKeys) →
      (∀ j, 0 < lookupBal st j → j ∈ os) →
      ∀ j, 0 < lookupBal (outerLoop allKeys os st).2 j →
      ∀ i, 0 ≤ lookupBal (outerLoop allKeys os st).2 i := by
  intro os
  induction os with
  | nil =>
    intro st _ hos j hj
    exact absurd (hos j hj) (List.not_mem_nil j)
  | cons k os ih =>
    intro st hall hos j hj i
    by_cases hg : 0 < lookupBal st k
    · by_cases hpos1 : 0 < lookupBal (innerVisit k (lookupBal st k) allKeys st).2 k
      · -- the visited creditor stays positive: all debts were absorbed
        have hge : ∀ i', 0 ≤ lookupBal (innerVisit k (lookupBal st k) allKeys st).2 i' := by
          refine innerVisit_main k hg allKeys st (le_refl _) ?_ hpos1
          intro j' hj'
          exact Or.inl (hall j' (ne_of_lt hj'))
        have hnoop := outerLoop_noop allKeys os _ hge
        simp only [outerLoop, if_pos hg, hnoop]
        exact hge i
      · -- the visited creditor ended nonpositive: recurse on the rest
        simp only [outerLoop, if_pos hg] at hj ⊢
        refine ih _ ?_ ?_ j hj i
        · intro j' hj'
          by_cases hmem : j' ∈ allKeys
          · exact hmem
          · exfalso
            have hk : k ∈ allKeys := hall k (ne_of_gt hg)
            have hne : j' ≠ k := fun h => hmem (h ▸ hk)
            rw [innerVisit_untouched k _ allKeys st j' hne hmem] at hj'
            exact hmem (hall j' hj')
        · intro j' hj'
          have := innerVisit_no_new_pos k hg allKeys st j' hj'
          rcases List.mem_cons.mp (hos j' this) with h | h
          · exact absurd (h ▸ hj') hpos1
          · exact h
    · simp only [outerLoop, if_neg hg] at hj ⊢
      refine ih st hall ?_ j hj i
      intro j' hj'
      rcases List.mem_cons.mp (hos j' hj') with h | h
      · exact absurd (h ▸ hj') hg
      · exact h

/-- A list of nonnegative rationals summing to zero is all zeros. -/
theorem sum_zero_of_nonneg : ∀ (l : List ℚ), (∀ x ∈ l, 0 ≤ x) → l.sum = 0 →
    ∀ x ∈ l, x = 0 := by
  intro l
  induction l with
  | nil => intro _ _ x hx; simp at hx
  | cons a l ih =>
    intro hge hsum x hx
    have hta : 0 ≤ a := hge a (List.mem_cons_self a l)
    have htl : 0 ≤ l.sum := List.sum_nonneg (fun y hy => hge y (List.mem_cons_of_mem a hy))
    simp only [List.sum_cons] at hsum
    have ha : a = 0 := by linarith
    have hl : l.sum = 0 := by linarith
    rcases List.mem_cons.mp hx with h | h
    · exact h ▸ ha
    · exact ih (fun y hy => hge y (List.mem_cons_of_mem a hy)) hl x h

/-- The sum of a list of nonpositive rationals is nonpositive. -/
theorem list_sum_nonpos : ∀ (l : List ℚ), (∀ x ∈ l, x ≤ 0) → l.sum ≤ 0 := by
  intro l
  induction l with
  | nil => intro _; simp
  | cons a l ih =>
    intro h
    have h1 : a ≤ 0 := h a (List.mem_cons_self a l)
    have h2 : l.sum ≤ 0 := ih (fun y hy => h y (List.mem_cons_of_mem a hy))
    simp only [List.sum_cons]
    linarith

/-- A list of nonpositive rationals summing to zero is all zeros. -/
theorem sum_zero_of_nonpos : ∀ (l : List ℚ), (∀ x ∈ l, x ≤ 0) → l.sum = 0 →
    ∀ x ∈ l, x = 0 := by
  intro l
  induction l with
  | nil => intro _ _ x hx; simp at hx
  | cons a l ih =>
    intro hle hsum x hx
    have hta : a ≤ 0 := hle a (List.mem_cons_self a l)
    have htl : l.sum ≤ 0 := list_sum_nonpos l (fun y hy => hle y (List.mem_cons_of_mem a hy))
    simp only [List.sum_cons] at hsum
    have ha : a = 0 := by linarith
    have hl : l.sum = 0 := by linarith
    rcases List.mem_cons.mp hx with h | h
    · exact h ▸ ha
    · exact ih (fun y hy => hle y (List.mem_cons_of_mem a hy)) hl x h

/-- A dict whose values are all zero looks up to zero everywhere. -/
theorem lookups_zero_of_entries_zero (m : Bal)
    (h : ∀ x ∈ m.map Prod.snd, x = 0) : ∀ k, lookupBal m k = 0 := by
  intro k
  by_cases hk : k ∈ m.map Prod.fst
  · exact h _ (List.mem_map_of_mem Prod.snd (mem_of_lookupBal hk))
  · exact lookupBal_eq_zero_of_not_mem hk

/-- Final-state property of the settlement pass on a balanced ledger
with distinct keys: every balance ends exactly at zero. -/
theorem settle_final_zero (st : Bal) (hnd : (st.map Prod.fst).Nodup)
    (hsum : sumBal st = 0) : ∀ k, lookupBal (settle st).2 k = 0 := by
  have hfin_nodup : (((settle st).2).map Prod.fst).Nodup :=
    outerLoop_nodup _ _ st hnd
  have hfin_sum : sumBal (settle st).2 = 0 := by
    rw [show (settle st).2 = (outerLoop (st.map Prod.fst) (st.map Prod.fst) st).2
      from rfl, outerLoop_sum, hsum]
  have hkey : ∀ j : String, lookupBal st j ≠ 0 → j ∈ st.map Prod.fst := by
    intro j hj
    by_contra hmem
    exact hj (lookupBal_eq_zero_of_not_mem hmem)
  have hentry : ∀ p ∈ (settle st).2, lookupBal (settle st).2 p.1 = p.2 := by
    intro p hp
    exact lookupBal_mem_of_nodup hfin_nodup (by rwa [Prod.mk.eta])
  refine lookups_zero_of_entries_zero _ ?_
  by_cases hex : ∃ j, 0 < lookupBal (settle st).2 j
  · -- some balance ended positive, so by the main lemma none is negative
    obtain ⟨j, hj⟩ := hex
    have hge : ∀ i, 0 ≤ lookupBal (settle st).2 i :=
      outerLoop_main _ _ st hkey (fun j' hj' => hkey j' (ne_of_gt hj')) j hj
    refine sum_zero_of_nonneg _ ?_ hfin_sum
    intro x hx
    obtain ⟨p, hp, hpx⟩ := List.mem_map.mp hx
    rw [← hpx, ← hentry p hp]
    exact hge p.1
  · -- no balance ended positive
    push_neg at hex
    refine sum_zero_of_nonpos _ ?_ hfin_sum
    intro x hx
    obtain ⟨p, hp, hpx⟩ := List.mem_map.mp hx
    rw [← hpx, ← hentry p hp]
    exact hex p.1

/-- An itemized cost component of an expense: the source stores each as
a dict with keys `item` (name) and `cost`. -/
structure Item where
  item : String
  cost : ℚ
deriving DecidableEq

/-- An expense record as consumed by the aggregation code: its item
list, the purchaser's id (`str(expense.purchased_by.id)`), and the ids
of the consumer group.  The `date` and `meal_type` fields are omitted:
the aggregation operates on a list already filtered to the target date
range and never reads them. -/
structure Expense where
  items : List Item
  purchasedBy : String
  consumedBy : List String
deriving DecidableEq

/-- `sum(item['cost'] for item in expense.items)`. -/
def totalCost (e : Expense) : ℚ := (e.items.map Item.cost).sum

/-- The accumulation pattern `if k not in d: d[k] = 0` followed by
`d[k] += v`: add `v` to the entry at `k`, creating it at the end of the
dict when absent. -/
def addTo (m : Bal) (k : String) (v : ℚ) : Bal := setBal m k (lookupBal m k + v)

theorem sumBal_addTo (m : Bal) (k : String) (v : ℚ) :
    sumBal (addTo m k v) = sumBal m + v := by
  rw [addTo, sumBal_setBal]
  ring

theorem nodup_keys_addTo {m : Bal} (k : String) (v : ℚ)
    (h : (m.map Prod.fst).Nodup) : ((addTo m k v).map Prod.fst).Nodup :=
  nodup_keys_setBal _ _ h

/-- A person's record in the weekly report.  The display-only `name`
field and the `owed_by`/`owes_to` lists are elided: the name is copied
verbatim from the roommate document, and the two lists are populated by
the settlement pass, which is modeled separately by `settle` and
`Transfer`. -/
structure ReportEntry where
  total_amount : ℚ
  total_items : Nat
  items : Bal
deriving DecidableEq

/-- The fresh report record created when a consumer id is first seen
(src/app.py lines 208-216). -/
def initEntry : ReportEntry := ⟨0, 0, []⟩

/-- Processing of one item for one consumer (src/app.py lines 222-226):

    if item['item'] not in report[roommate_id]['items']:
        report[roommate_id]['items'][item['item']] = 0
        report[roommate_id]['total_items'] += 1
    report[roommate_id]['items'][item['item']] += item['cost']

Note the full `item['cost']` is added, not the per-consumer share. -/
def addItem (en : ReportEntry) (it : Item) : ReportEntry :=
  if it.item ∈ en.items.map Prod.fst then
    { en with items := addTo en.items it.item it.cost }
  else
    { en with
      items := addTo en.items it.item it.cost
      total_items := en.total_items + 1 }

/-- In-place update of the (first) report record with key `k`. -/
def updEntry : List (String × ReportEntry) → String →
    (ReportEntry → ReportEntry) → List (String × ReportEntry)
  | [], _, _ => []
  | (k', en) :: r, k, f =>
    if k = k' then (k', f en) :: r else (k', en) :: updEntry r k f

/-- The three dicts built by the aggregation loop of `weekly_report`
(src/app.py lines 196-228). -/
structure WState where
  spending : Bal
  report : List (String × ReportEntry)
  consumption : Bal
deriving DecidableEq

/-- The per-consumer mutation of a report record by one expense: fold
the expense's items into the record (src/app.py lines 222-226), then
add the full expense total to `total_amount` (line 228). -/
def consumerUpd (e : Expense) (en : ReportEntry) : ReportEntry :=
  let en1 := e.items.foldl addItem en
  { en1 with total_amount := en1.total_amount + totalCost e }

/-- The body of `for roommate in expense.consumed_by` (src/app.py lines
206-228): initialize the consumer's report record if absent, add the
per-consumer share `total / len(consumed_by)` to the consumption dict,
fold the expense's items into the record, and add the full expense
total to the record's `total_amount`. -/
def consumerStep (e : Expense) (st : WState) (rid : String) : WState :=
  let rep0 := if rid ∈ st.report.map Prod.fst then st.report
    else st.report ++ [(rid, initEntry)]
  let cons1 := addTo st.consumption rid (totalCost e / (e.consumedBy.length : ℚ))
  let rep1 := updEntry rep0 rid (consumerUpd e)
  { st with report := rep1, consumption := cons1 }

/-- The body of `for expense in expenses` (src/app.py lines 200-228):
add the expense total to the purchaser's spending, then process each
consumer. -/
def expenseStep (st : WState) (e : Expense) : WState :=
  let st1 := { st with spending := addTo st.spending e.purchasedBy (totalCost e) }
  e.consumedBy.foldl (consumerStep e) st1

/-- The complete aggregation loop of `weekly_report`, starting from the
three empty dicts. -/
def weeklyAgg (es : List Expense) : WState := es.foldl expenseStep ⟨[], [], []⟩

/-- The balance dict built from the aggregation output (src/app.py
lines 230-234): one entry per *purchaser*, valued
`total_spent - consumption.get(roommate_id, 0)`. -/
def mkBalances (st : WState) : Bal :=
  st.spending.map (fun p => (p.1, p.2 - lookupBal st.consumption p.1))

/-- The full `weekly_report` computation after date filtering: aggregate,
derive balances, run the settlement pass. -/
def weekly_report (es : List Expense) : List Transfer × Bal :=
  settle (mkBalances (weeklyAgg es))

/-- A roommate as read by `split_expense`: id and display name. -/
structure Roommate where
  id : String
  name : String
deriving DecidableEq

/-- Failure outcomes of the `split_expense` computation.
`zeroDivisionError` is Python's unstructured exception raised by
`total_cost / len(expense.consumed_by)` on an empty consumer group;
`keyError` is raised by indexing `roommate_expenses[...]` with an id
absent from the roster dict.  `emptyConsumerGroupError` is Modelled
from the spec: the structured `EmptyConsumerGroupError` of spec §7
appears nowhere in src/app.py; the constructor exists only so the
spec's claimed outcome can be stated and compared with what the source
actually raises. -/
inductive PyErr where
  | zeroDivisionError
  | keyError
  | emptyConsumerGroupError
deriving DecidableEq

/-- A value of the `split_expense` roster dict:
`{'name': roommate.name, 'amount': 0}`. -/
structure SplitEntry where
  name : String
  amount : ℚ
deriving DecidableEq

abbrev SplitMap := List (String × SplitEntry)

/-- `{str(roommate.id): {'name': roommate.name, 'amount': 0} for
roommate in Roommate.objects()}` (src/app.py line 177). -/
def splitInit (roster : List Roommate) : SplitMap :=
  roster.map (fun r => (r.id, ⟨r.name, 0⟩))

/-- `roommate_expenses[k]['amount'] += v` on a present key. -/
def updSplit : SplitMap → String → ℚ → SplitMap
  | [], _, _ => []
  | (k', en) :: m, k, v =>
    if k = k' then (k', ⟨en.name, en.amount + v⟩) :: m
    else (k', en) :: updSplit m k v

/-- `for roommate in expense.consumed_by: roommate_expenses[str(
roommate.id)]['amount'] += split_amount` (src/app.py lines 183-184);
indexing an id absent from the dict raises `KeyError`. -/
def splitConsumers (amt : ℚ) : List String → SplitMap → Except PyErr SplitMap
  | [], m => .ok m
  | r :: rs, m =>
    if r ∈ m.map Prod.fst then splitConsumers amt rs (updSplit m r amt)
    else .error .keyError

/-- The expense loop of `split_expense` (src/app.py lines 179-184):
per expense, `split_amount = total_cost / len(expense.consumed_by)`
raises `ZeroDivisionError` on an empty consumer group, before the
consumer loop runs. -/
def splitExpenses : List Expense → SplitMap → Except PyErr SplitMap
  | [], m => .ok m
  | e :: es, m =>
    if e.consumedBy.length = 0 then .error .zeroDivisionError
    else
      match splitConsumers (totalCost e / (e.consumedBy.length : ℚ)) e.consumedBy m with
      | .ok m1 => splitExpenses es m1
      | .error err => .error err

/-- The `split_expense` computation after date filtering: initialize
one zero entry per roster member, then fold the expenses. -/
def split_expense (es : List Expense) (roster : List Roommate) :
    Except PyErr SplitMap :=
  splitExpenses es (splitInit roster)

/-- One inner sweep emits at most one transfer per visited key distinct
from the creditor. -/
theorem innerVisit_length (cid : String) (b : ℚ) :
    ∀ (ks : List String) (st : Bal),
      (innerVisit cid b ks st).1.length ≤ (ks.filter (fun x => x != cid)).length := by
  intro ks
  induction ks with
  | nil => intro st; exact Nat.le_refl 0
  | cons k ks ih =>
    intro st
    by_cases hg : k ≠ cid ∧ lookupBal st k < 0
    · have hfil : (k :: ks).filter (fun x => x != cid) =
          k :: ks.filter (fun x => x != cid) := by
        simp [List.filter_cons, hg.1]
      simp only [innerVisit, if_pos hg, hfil]
      by_cases hz : lookupBal (innerUpd st cid k (min b (-(lookupBal st k)))) cid = 0
      · simp only [if_pos hz, List.length_cons, List.length_singleton]
        exact Nat.succ_le_succ (Nat.zero_le _)
      · simp only [if_neg hz, List.length_cons]
        exact Nat.succ_le_succ (ih _)
    · simp only [innerVisit, if_neg hg]
      calc (innerVisit cid b ks st).1.length
          ≤ (ks.filter (fun x => x != cid)).length := ih st
        _ ≤ ((k :: ks).filter (fun x => x != cid)).length := by
            simp only [List.filter_cons]
            split <;> simp

/-- Removing one occurrence of a present key from a duplicate-free key
list shortens it by exactly one. -/
theorem filter_ne_length : ∀ (A : List String) (k : String), A.Nodup → k ∈ A →
    (A.filter (fun x => x != k)).length + 1 = A.length := by
  intro A
  induction A with
  | nil => intro k _ hk; simp at hk
  | cons a A ih =>
    intro k hnd hk
    simp only [List.nodup_cons] at hnd
    by_cases hak : a = k
    · subst hak
      have hfil : A.filter (fun x => x != a) = A :=
        List.filter_eq_self.mpr (fun x hx => by
          simp only [bne_iff_ne, ne_eq, decide_eq_true_eq]
          rintro rfl
          exact hnd.1 hx)
      simp [List.filter_cons, hfil]
    · have hkA : k ∈ A := by
        rcases List.mem_cons.mp hk with h | h
        · exact absurd h.symm hak
        · exact h
      have : ((a :: A).filter (fun x => x != k)) = a :: A.filter (fun x => x != k) := by
        simp [List.filter_cons, hak]
      rw [this]
      simp only [List.length_cons]
      rw [← ih k hnd.2 hkA]

/-- The settlement pass emits at most `|allKeys| - 1` transfers per
outer visit. -/
theorem outerLoop_length (allKeys : List String) (hnd : allKeys.Nodup) :
    ∀ (os : List String) (st : Bal), (∀ k ∈ os, k ∈ allKeys) →
      (outerLoop allKeys os st).1.length ≤ os.length * (allKeys.length - 1) := by
  intro os
  induction os with
  | nil => intro st _; simp [outerLoop]
  | cons k os ih =>
    intro st hsub
    have hk : k ∈ allKeys := hsub k (List.mem_cons_self k os)
    have hone : (allKeys.filter (fun x => x != k)).length = allKeys.length - 1 := by
      have := filter_ne_length allKeys k hnd hk
      omega
    by_cases hg : 0 < lookupBal st k
    · simp only [outerLoop, if_pos hg, List.length_append]
      have h1 : (innerVisit k (lookupBal st k) allKeys st).1.length ≤
          allKeys.length - 1 := by
        rw [← hone]
        exact innerVisit_length k _ allKeys st
      have h2 := ih (innerVisit k (lookupBal st k) allKeys st).2
        (fun x hx => hsub x (List.mem_cons_of_mem k hx))
      calc (innerVisit k (lookupBal st k) allKeys st).1.length +
            (outerLoop allKeys os (innerVisit k (lookupBal st k) allKeys st).2).1.length
          ≤ (allKeys.length - 1) + os.length * (allKeys.length - 1) := Nat.add_le_add h1 h2
        _ = (os.length + 1) * (allKeys.length - 1) := by ring
    · simp only [outerLoop, if_neg hg]
      calc (outerLoop allKeys os st).1.length
          ≤ os.length * (allKeys.length - 1) :=
            ih st (fun x hx => hsub x (List.mem_cons_of_mem k hx))
        _ ≤ (os.length + 1) * (allKeys.length - 1) :=
            Nat.mul_le_mul_right _ (Nat.le_succ _)

/-- Exact characterization of each emitted transfer of one inner sweep:
its creditor is the visited creditor, and its amount is
`min(b, -debtorRemaining)` where `b` is the *stale* balance read at the
start of the creditor's outer iteration and `debtorRemaining` accounts
for all previously emitted transfers. -/
theorem innerVisit_amount (cid : String) (b : ℚ) :
    ∀ (ks : List String) (st : Bal) (i : Nat) (t : Transfer),
      (innerVisit cid b ks st).1.get? i = some t →
      t.creditor = cid ∧
      t.amount = min b (-(lookupBal (replay st ((innerVisit cid b ks st).1.take i))
        t.debtor)) := by
  intro ks
  induction ks with
  | nil => intro st i t ht; simp [innerVisit] at ht
  | cons k ks ih =>
    intro st i t ht
    by_cases hg : k ≠ cid ∧ lookupBal st k < 0
    · have happ : applyTransfer st ⟨k, cid, min b (-(lookupBal st k))⟩ =
          innerUpd st cid k (min b (-(lookupBal st k))) := by
        simp only [applyTransfer, innerUpd]
        rw [lookupBal_setBal_ne st _ hg.1]
      simp only [innerVisit, if_pos hg] at ht ⊢
      by_cases hz : lookupBal (innerUpd st cid k (min b (-(lookupBal st k)))) cid = 0
      · simp only [if_pos hz] at ht ⊢
        match i with
        | 0 =>
          simp only [List.get?_cons_zero, Option.some.injEq] at ht
          subst ht
          exact ⟨rfl, rfl⟩
        | i + 1 => simp at ht
      · simp only [if_neg hz] at ht ⊢
        match i with
        | 0 =>
          simp only [List.get?_cons_zero, Option.some.injEq] at ht
          subst ht
          exact ⟨rfl, rfl⟩
        | i + 1 =>
          simp only [List.get?_cons_succ] at ht
          have := ih (innerUpd st cid k (min b (-(lookupBal st k)))) i t ht
          rw [List.take_succ_cons]
          have hrep : replay st (⟨k, cid, min b (-(lookupBal st k))⟩ ::
              (innerVisit cid b ks (innerUpd st cid k (min b (-(lookupBal st k))))).1.take i) =
              replay (innerUpd st cid k (min b (-(lookupBal st k))))
                ((innerVisit cid b ks (innerUpd st cid k (min b (-(lookupBal st k))))).1.take i) := by
            simp only [replay, List.foldl_cons, happ]
          rw [hrep]
          exact this
    · simp only [innerVisit, if_neg hg] at ht ⊢
      exact ih st i t ht

/-- Number of dict entries with a nonzero balance: the spec's "active"
parties. -/
def activeCount (st : Bal) : Nat := (st.filter (fun p => p.2 != 0)).length

/-- Total of the positive balances of a dict. -/
def posSum (st : Bal) : ℚ :=
  ((st.filter (fun p => decide (0 < p.2))).map Prod.snd).sum

/-- C2 (amended): for a balance dict with distinct keys whose values
sum to zero, replaying the transfer sequence emitted by the settlement
pass against the initial balances — subtracting each amount from the
creditor and adding it to the debtor — drives every balance exactly to
zero.  The original claim's second half, that the transfer amounts sum
to the positive part of the initial balances, is refuted by
`c2_counterexample`. -/
theorem c2_replay_settles_to_zero (st : Bal) (hnd : (st.map Prod.fst).Nodup)
    (hsum : sumBal st = 0) : ∀ k, lookupBal (replay st (settle st).1) k = 0 := by
  intro k
  rw [settle_replay st]
  exact settle_final_zero st hnd hsum k

/-- Witness for `c2_replay_settles_to_zero` at the concrete balanced
dict `{a: 3, b: -3}`. -/
theorem c2_witness :
    sumBal [("a", (3 : ℚ)), ("b", -3)] = 0 ∧
    ∀ k, lookupBal (replay [("a", (3 : ℚ)), ("b", -3)]
      (settle [("a", (3 : ℚ)), ("b", -3)]).1) k = 0 :=
  ⟨by norm_num [sumBal],
   c2_replay_settles_to_zero _ (by decide) (by norm_num [sumBal])⟩

/-- C2 counterexample: on the balanced dict `{A: 10, B: -7, C: -7,
D: 4}` the pass emits transfers totalling 18 while the positive
balances total 14: the stale-balance read makes `A` overdraw and later
receive a compensating transfer, so the emitted total exceeds the
positive part. -/
theorem c2_counterexample :
    sumBal [("A", (10 : ℚ)), ("B", -7), ("C", -7), ("D", 4)] = 0 ∧
    ((settle [("A", (10 : ℚ)), ("B", -7), ("C", -7), ("D", 4)]).1.map
      Transfer.amount).sum = 18 ∧
    posSum [("A", (10 : ℚ)), ("B", -7), ("C", -7), ("D", 4)] = 14 ∧
    ((settle [("A", (10 : ℚ)), ("B", -7), ("C", -7), ("D", 4)]).1.map
      Transfer.amount).sum ≠
      posSum [("A", (10 : ℚ)), ("B", -7), ("C", -7), ("D", 4)] := by
  have h1 : ((settle [("A", (10 : ℚ)), ("B", -7), ("C", -7), ("D", 4)]).1.map
      Transfer.amount).sum = 18 := by
    norm_num +decide [settle, outerLoop, innerVisit, innerUpd, setBal, lookupBal,
      min_def]
  have h2 : posSum [("A", (10 : ℚ)), ("B", -7), ("C", -7), ("D", 4)] = 14 := by
    norm_num +decide [posSum]
  exact ⟨by norm_num [sumBal], h1, h2, by rw [h1, h2]; norm_num⟩

/-- C3 (amended): every transfer emitted during one inner sweep names
the visited creditor, and its amount is `min(b, -debtorRemaining)`
where the debtor's remaining balance reflects all previously emitted
transfers but `b` is the creditor's *stale* balance read at the start
of the creditor's outer iteration; the sweep's state change is exactly
the replay of its transfer list, so the balances are then updated by
exactly the emitted amount.  The original claim, with the creditor's
*current* remaining balance inside the `min`, is refuted by
`c3_counterexample`. -/
theorem c3_transfer_amounts (cid : String) (b : ℚ) (ks : List String) (st : Bal) :
    (∀ (i : Nat) (t : Transfer), (innerVisit cid b ks st).1.get? i = some t →
      t.creditor = cid ∧
      t.amount = min b (-(lookupBal
        (replay st ((innerVisit cid b ks st).1.take i)) t.debtor))) ∧
    replay st (innerVisit cid b ks st).1 = (innerVisit cid b ks st).2 :=
  ⟨fun i t ht => innerVisit_amount cid b ks st i t ht,
   innerVisit_replay cid b ks st⟩

/-- Witness for `c3_transfer_amounts`: the second transfer of the sweep
for creditor `A` on `{A: 10, B: -7, C: -7, D: 4}`. -/
theorem c3_witness :
    (⟨"C", "A", (7 : ℚ)⟩ : Transfer).creditor = "A" ∧
    (⟨"C", "A", (7 : ℚ)⟩ : Transfer).amount = min 10
      (-(lookupBal (replay [("A", (10 : ℚ)), ("B", -7), ("C", -7), ("D", 4)]
        ((innerVisit "A" 10 ["A", "B", "C", "D"]
          [("A", (10 : ℚ)), ("B", -7), ("C", -7), ("D", 4)]).1.take 1))
        (⟨"C", "A", (7 : ℚ)⟩ : Transfer).debtor)) :=
  (c3_transfer_amounts "A" 10 ["A", "B", "C", "D"]
    [("A", (10 : ℚ)), ("B", -7), ("C", -7), ("D", 4)]).1 1 ⟨"C", "A", 7⟩
    (by norm_num +decide [innerVisit, innerUpd, setBal, lookupBal, min_def])

/-- C3 counterexample: in the sweep for creditor `A` on `{A: 10, B: -7,
C: -7, D: 4}`, the second emitted transfer has amount 7, but `A`'s
remaining balance after the first transfer is 3, so
`min(creditorRemaining, -debtorRemaining) = 3 ≠ 7`: the source reads
the stale outer-loop value instead of the updated one. -/
theorem c3_counterexample :
    (innerVisit "A" 10 ["A", "B", "C", "D"]
      [("A", (10 : ℚ)), ("B", -7), ("C", -7), ("D", 4)]).1.get? 1 =
      some ⟨"C", "A", 7⟩ ∧
    lookupBal (replay [("A", (10 : ℚ)), ("B", -7), ("C", -7), ("D", 4)]
      ((innerVisit "A" 10 ["A", "B", "C", "D"]
        [("A", (10 : ℚ)), ("B", -7), ("C", -7), ("D", 4)]).1.take 1)) "A" = 3 ∧
    lookupBal (replay [("A", (10 : ℚ)), ("B", -7), ("C", -7), ("D", 4)]
      ((innerVisit "A" 10 ["A", "B", "C", "D"]
        [("A", (10 : ℚ)), ("B", -7), ("C", -7), ("D", 4)]).1.take 1)) "C" = -7 ∧
    (7 : ℚ) ≠ min 3 (-(-7 : ℚ)) := by
  refine ⟨?_, ?_, ?_, by norm_num [min_def]⟩ <;>
    norm_num +decide [innerVisit, innerUpd, setBal, lookupBal, replay,
      applyTransfer, min_def]

/-- C6 (amended): the settlement pass performs no balance-sum check and
has no failure outcome: on every balance dict, balanced or not, it
emits a transfer list, and replaying that list preserves the dict's
total, so a nonzero imbalance persists silently in the final balances
instead of raising an `ImbalancedLedgerError`. -/
theorem c6_no_imbalance_check (st : Bal) :
    sumBal (replay st (settle st).1) = sumBal st := by
  rw [settle_replay st]
  exact outerLoop_sum _ _ st

/-- C6 counterexample: on the imbalanced dict `{a: 5, b: -2}` (total 3,
beyond any epsilon) the pass silently emits the transfer `b → a` of 2
instead of failing with no output, and leaves the residual 3 on `a`. -/
theorem c6_counterexample :
    sumBal [("a", (5 : ℚ)), ("b", -2)] = 3 ∧
    (settle [("a", (5 : ℚ)), ("b", -2)]).1 = [⟨"b", "a", 2⟩] ∧
    (settle [("a", (5 : ℚ)), ("b", -2)]).2 = [("a", 3), ("b", 0)] := by
  refine ⟨by norm_num [sumBal], ?_, ?_⟩ <;>
    norm_num +decide [settle, outerLoop, innerVisit, innerUpd, setBal, lookupBal,
      min_def]

/-- C7 (amended): the settlement pass on a dict with `K` distinct keys
emits at most `K·(K-1)` transfers — at most one per ordered (creditor
visit, debtor) pair.  The claimed bound `max(0, N-1)` over the `N`
active balances is refuted by `c7_counterexample`. -/
theorem c7_transfer_bound (st : Bal) (hnd : (st.map Prod.fst).Nodup) :
    (settle st).1.length ≤ st.length * (st.length - 1) := by
  have h := outerLoop_length (st.map Prod.fst) hnd (st.map Prod.fst) st
    (fun k hk => hk)
  simpa [List.length_map] using h

/-- Witness for `c7_transfer_bound` at the dict `{a: 5, b: -2}`. -/
theorem c7_witness :
    (settle [("a", (5 : ℚ)), ("b", -2)]).1.length ≤
      [("a", (5 : ℚ)), ("b", -2)].length *
        ([("a", (5 : ℚ)), ("b", -2)].length - 1) :=
  c7_transfer_bound _ (by decide)

/-- C7 counterexample: on `{a: 10, b: -4, c: -26, d: 20}` all four
balances are active, yet the pass emits 4 transfers, exceeding the
claimed bound `max(0, 4-1) = 3`: the stale-balance read lets `a`
overdraw against `c`, and `d` must then pay both `a` and `c`. -/
theorem c7_counterexample :
    activeCount [("a", (10 : ℚ)), ("b", -4), ("c", -26), ("d", 20)] = 4 ∧
    (settle [("a", (10 : ℚ)), ("b", -4), ("c", -26), ("d", 20)]).1.length = 4 ∧
    ¬((settle [("a", (10 : ℚ)), ("b", -4), ("c", -26), ("d", 20)]).1.length ≤
      max 0 (activeCount [("a", (10 : ℚ)), ("b", -4), ("c", -26), ("d", 20)] - 1)) := by
  have h1 : activeCount [("a", (10 : ℚ)), ("b", -4), ("c", -26), ("d", 20)] = 4 := by
    norm_num +decide [activeCount]
  have h2 : (settle [("a", (10 : ℚ)), ("b", -4), ("c", -26), ("d", 20)]).1.length = 4 := by
    norm_num +decide [settle, outerLoop, innerVisit, innerUpd, setBal, lookupBal,
      min_def]
  exact ⟨h1, h2, by rw [h1, h2]; norm_num⟩

/-- C8: the settlement pass is a pure function of the balance dict; our
embedding fixes the dict's key insertion order, matching the claim's
same-ordering proviso, so two runs on the same dict yield identical
transfer sequences (same pairs, same amounts, same order). -/
theorem c8_settle_deterministic (m1 m2 : Bal) (h : m1 = m2) :
    (settle m1).1 = (settle m2).1 := by rw [h]

/-- Witness for `c8_settle_deterministic` at `{a: 1, b: -1}`. -/
theorem c8_witness :
    (settle [("a", (1 : ℚ)), ("b", -1)]).1 = (settle [("a", (1 : ℚ)), ("b", -1)]).1 :=
  c8_settle_deterministic _ _ rfl

theorem consumerFold_spending (e : Expense) :
    ∀ (l : List String) (st : WState),
      (l.foldl (consumerStep e) st).spending = st.spending := by
  intro l
  induction l with
  | nil => intro st; rfl
  | cons r l ih =>
    intro st
    rw [List.foldl_cons, ih]
    rfl

theorem consumerFold_consumption (e : Expense) :
    ∀ (l : List String) (st : WState),
      sumBal (l.foldl (consumerStep e) st).consumption =
        sumBal st.consumption +
          l.length * (totalCost e / (e.consumedBy.length : ℚ)) := by
  intro l
  induction l with
  | nil => intro st; simp
  | cons r l ih =>
    intro st
    rw [List.foldl_cons, ih]
    have : (consumerStep e st r).consumption =
        addTo st.consumption r (totalCost e / (e.consumedBy.length : ℚ)) := rfl
    rw [this, sumBal_addTo]
    simp only [List.length_cons]
    push_cast
    ring

/-- The aggregation loop adds the same amount to total spending and to
total consumption per expense with a nonempty consumer group, so their
difference is invariant. -/
theorem agg_sub_invariant : ∀ (es : List Expense) (st : WState),
    (∀ e ∈ es, e.consumedBy ≠ []) →
    sumBal (es.foldl expenseStep st).spending -
      sumBal (es.foldl expenseStep st).consumption =
      sumBal st.spending - sumBal st.consumption := by
  intro es
  induction es with
  | nil => intro st _; rfl
  | cons e es ih =>
    intro st h
    rw [List.foldl_cons, ih _ (fun x hx => h x (List.mem_cons_of_mem e hx))]
    have hlen : (e.consumedBy.length : ℚ) ≠ 0 := by
      have := h e (List.mem_cons_self e es)
      simpa [List.length_eq_zero] using this
    have hsp : (expenseStep st e).spending =
        addTo st.spending e.purchasedBy (totalCost e) := by
      rw [expenseStep, consumerFold_spending]
    have hcs : sumBal (expenseStep st e).consumption =
        sumBal st.consumption +
          e.consumedBy.length * (totalCost e / (e.consumedBy.length : ℚ)) := by
      rw [expenseStep, consumerFold_consumption]
    rw [hsp, sumBal_addTo, hcs]
    have : (e.consumedBy.length : ℚ) * (totalCost e / (e.consumedBy.length : ℚ)) =
        totalCost e := by
      field_simp
    rw [this]
    ring

theorem agg_spending_mono : ∀ (es : List Expense) (st : WState) (j : String),
    j ∈ st.spending.map Prod.fst →
    j ∈ ((es.foldl expenseStep st).spending).map Prod.fst := by
  intro es
  induction es with
  | nil => intro st j h; exact h
  | cons e es ih =>
    intro st j h
    rw [List.foldl_cons]
    refine ih _ j ?_
    rw [expenseStep, consumerFold_spending]
    exact mem_keys_setBal_of_mem _ _ h

theorem agg_spending_mem : ∀ (es : List Expense) (st : WState) (e : Expense),
    e ∈ es →
    e.purchasedBy ∈ ((es.foldl expenseStep st).spending).map Prod.fst := by
  intro es
  induction es with
  | nil => intro st e h; simp at h
  | cons e0 es ih =>
    intro st e h
    rcases List.mem_cons.mp h with h | h
    · subst h
      rw [List.foldl_cons]
      refine agg_spending_mono es _ e.purchasedBy ?_
      rw [expenseStep, consumerFold_spending]
      exact mem_keys_setBal _ _ _
    · rw [List.foldl_cons]
      exact ih _ e h

theorem consumerFold_cons_keys (e : Expense) :
    ∀ (l : List String) (st : WState) (j : String),
      j ∈ ((l.foldl (consumerStep e) st).consumption).map Prod.fst →
      j ∈ st.consumption.map Prod.fst ∨ j ∈ l := by
  intro l
  induction l with
  | nil => intro st j h; exact Or.inl h
  | cons r l ih =>
    intro st j h
    rw [List.foldl_cons] at h
    rcases ih _ j h with h' | h'
    · have : (consumerStep e st r).consumption =
          addTo st.consumption r (totalCost e / (e.consumedBy.length : ℚ)) := rfl
      rw [this] at h'
      rcases keys_setBal_subset _ _ _ j h' with h'' | h''
      · exact Or.inl h''
      · exact Or.inr (h'' ▸ List.mem_cons_self r l)
    · exact Or.inr (List.mem_cons_of_mem r h')

theorem agg_cons_keys : ∀ (es : List Expense) (st : WState) (j : String),
    j ∈ ((es.foldl expenseStep st).consumption).map Prod.fst →
    j ∈ st.consumption.map Prod.fst ∨ ∃ e ∈ es, j ∈ e.consumedBy := by
  intro es
  induction es with
  | nil => intro st j h; exact Or.inl h
  | cons e es ih =>
    intro st j h
    rw [List.foldl_cons] at h
    rcases ih _ j h with h' | h'
    · rcases consumerFold_cons_keys e _ _ j h' with h'' | h''
      · exact Or.inl h''
      · exact Or.inr ⟨e, List.mem_cons_self e es, h''⟩
    · obtain ⟨e', he', hj⟩ := h'
      exact Or.inr ⟨e', List.mem_cons_of_mem e he', hj⟩

theorem agg_spending_nodup : ∀ (es : List Expense) (st : WState),
    (st.spending.map Prod.fst).Nodup →
    (((es.foldl expenseStep st).spending).map Prod.fst).Nodup := by
  intro es
  induction es with
  | nil => intro st h; exact h
  | cons e es ih =>
    intro st h
    rw [List.foldl_cons]
    refine ih _ ?_
    rw [expenseStep, consumerFold_spending]
    exact nodup_keys_addTo _ _ h

theorem consumerFold_cons_nodup (e : Expense) :
    ∀ (l : List String) (st : WState),
      (st.consumption.map Prod.fst).Nodup →
      (((l.foldl (consumerStep e) st).consumption).map Prod.fst).Nodup := by
  intro l
  induction l with
  | nil => intro st h; exact h
  | cons r l ih =>
    intro st h
    rw [List.foldl_cons]
    exact ih _ (nodup_keys_addTo _ _ h)

theorem agg_cons_nodup : ∀ (es : List Expense) (st : WState),
    (st.consumption.map Prod.fst).Nodup →
    (((es.foldl expenseStep st).consumption).map Prod.fst).Nodup := by
  intro es
  induction es with
  | nil => intro st h; exact h
  | cons e es ih =>
    intro st h
    rw [List.foldl_cons]
    exact ih _ (consumerFold_cons_nodup e _ _ h)

/-- Total of the derived balance dict: total spending minus the
consumption looked up at each spender's key. -/
theorem sumBal_mkBalances (st : WState) :
    sumBal (mkBalances st) = sumBal st.spending -
      ((st.spending.map Prod.fst).map (lookupBal st.consumption)).sum := by
  unfold mkBalances sumBal
  induction st.spending with
  | nil => simp
  | cons p m ih =>
    simp only [List.map_cons, List.sum_cons, ih]
    ring

theorem sum_map_lookup_nil : ∀ (L : List String),
    (L.map (lookupBal [])).sum = 0 := by
  intro L
  induction L with
  | nil => rfl
  | cons l L ih => simp [lookupBal, ih]

theorem sum_map_lookup_cons (k0 : String) (v0 : ℚ) (m : Bal)
    (h0 : lookupBal m k0 = 0) :
    ∀ (L : List String), L.Nodup → k0 ∈ L →
      (L.map (lookupBal ((k0, v0) :: m))).sum =
        v0 + (L.map (lookupBal m)).sum := by
  intro L
  induction L with
  | nil => intro _ hk; simp at hk
  | cons l L ih =>
    intro hnd hk
    simp only [List.nodup_cons] at hnd
    by_cases hlk : l = k0
    · subst hlk
      have htail : L.map (lookupBal ((l, v0) :: m)) = L.map (lookupBal m) :=
        List.map_congr_left (fun x hx => by
          have : x ≠ l := fun h => hnd.1 (h ▸ hx)
          simp [lookupBal, this])
      simp only [List.map_cons, List.sum_cons, htail]
      have hhead : lookupBal ((l, v0) :: m) l = v0 := by simp [lookupBal]
      rw [hhead, ← htail, htail, h0]
      ring
    · have hkL : k0 ∈ L := by
        rcases List.mem_cons.mp hk with h | h
        · exact absurd h (fun hh => hlk hh.symm)
        · exact h
      simp only [List.map_cons, List.sum_cons]
      have hhead : lookupBal ((k0, v0) :: m) l = lookupBal m l := by
        simp [lookupBal, hlk]
      rw [hhead, ih hnd.2 hkL]
      ring

/-- Summing a dict's lookups over a duplicate-free key list covering
the dict's keys gives the dict's total. -/
theorem sum_map_lookup : ∀ (m : Bal) (L : List String), L.Nodup →
    (m.map Prod.fst).Nodup → (∀ j ∈ m.map Prod.fst, j ∈ L) →
    (L.map (lookupBal m)).sum = sumBal m := by
  intro m
  induction m with
  | nil =>
    intro L _ _ _
    rw [sum_map_lookup_nil]
    rfl
  | cons p m ih =>
    obtain ⟨k0, v0⟩ := p
    intro L hL hnd hsub
    simp only [List.map_cons, List.nodup_cons] at hnd
    have h0 : lookupBal m k0 = 0 := lookupBal_eq_zero_of_not_mem hnd.1
    have hk0 : k0 ∈ L := hsub k0 (by simp)
    rw [sum_map_lookup_cons k0 v0 m h0 L hL hk0,
      ih L hL hnd.2 (fun j hj => hsub j (by simp [hj]))]
    simp [sumBal]

/-- C1 (amended): the balance dict built by `weekly_report` has one
entry per purchaser only, so its total is zero provided every person
appearing in a consumer group is also the purchaser of some expense in
the set (each expense having a nonempty consumer group); without that
proviso the total equals the consumption attributed to non-purchasers,
which is nonzero in general — see `c1_counterexample`. -/
theorem c1_balance_sum_zero (es : List Expense)
    (h1 : ∀ e ∈ es, e.consumedBy ≠ [])
    (h2 : ∀ e ∈ es, ∀ c ∈ e.consumedBy, ∃ e2 ∈ es, e2.purchasedBy = c) :
    sumBal (mkBalances (weeklyAgg es)) = 0 := by
  have hsp_nodup : (((weeklyAgg es).spending).map Prod.fst).Nodup :=
    agg_spending_nodup es ⟨[], [], []⟩ (by simp)
  have hcs_nodup : (((weeklyAgg es).consumption).map Prod.fst).Nodup :=
    agg_cons_nodup es ⟨[], [], []⟩ (by simp)
  have hsub : ∀ j ∈ ((weeklyAgg es).consumption).map Prod.fst,
      j ∈ ((weeklyAgg es).spending).map Prod.fst := by
    intro j hj
    rcases agg_cons_keys es ⟨[], [], []⟩ j hj with h | h
    · simp at h
    · obtain ⟨e, he, hc⟩ := h
      obtain ⟨e2, he2, hp⟩ := h2 e he j hc
      exact hp ▸ agg_spending_mem es ⟨[], [], []⟩ e2 he2
  have hdiff : sumBal (weeklyAgg es).spending - sumBal (weeklyAgg es).consumption = 0 := by
    have := agg_sub_invariant es ⟨[], [], []⟩ h1
    simpa [sumBal] using this
  rw [sumBal_mkBalances,
    sum_map_lookup (weeklyAgg es).consumption (((weeklyAgg es).spending).map Prod.fst)
      hsp_nodup hcs_nodup hsub]
  linarith

/-- Witness for `c1_balance_sum_zero`: two expenses where each consumer
is also a purchaser. -/
theorem c1_witness :
    sumBal (mkBalances (weeklyAgg
      [⟨[⟨"x", 6⟩], "a", ["a", "b"]⟩, ⟨[⟨"y", 4⟩], "b", ["b"]⟩])) = 0 :=
  c1_balance_sum_zero _ (by decide) (by decide)

/-- C1 counterexample: a single expense purchased by `a` and consumed
only by `b` yields the balance dict `{a: 10}`: `b` gets no entry, and
the total is 10, far beyond the claimed `1e-9` tolerance around zero. -/
theorem c1_counterexample :
    mkBalances (weeklyAgg [⟨[⟨"x", 10⟩], "a", ["b"]⟩]) = [("a", 10)] ∧
    ¬(|sumBal (mkBalances (weeklyAgg [⟨[⟨"x", 10⟩], "a", ["b"]⟩]))| ≤
      1 / 1000000000) := by
  have h : mkBalances (weeklyAgg [⟨[⟨"x", 10⟩], "a", ["b"]⟩]) = [("a", 10)] := by
    norm_num +decide [weeklyAgg, expenseStep, consumerStep, mkBalances, initEntry,
      updEntry, addItem, addTo, setBal, lookupBal, totalCost]
  refine ⟨h, ?_⟩
  rw [h]
  norm_num [sumBal]

theorem keys_setBal_of_not_mem {m : Bal} {k : String} (v : ℚ)
    (h : k ∉ m.map Prod.fst) :
    (setBal m k v).map Prod.fst = m.map Prod.fst ++ [k] := by
  induction m with
  | nil => simp [setBal]
  | cons p m ih =>
    obtain ⟨k', v'⟩ := p
    simp only [List.map_cons, List.mem_cons, not_or] at h
    simp only [setBal, if_neg h.1, List.map_cons, ih h.2, List.cons_append]

theorem addItem_total_amount (en : ReportEntry) (it : Item) :
    (addItem en it).total_amount = en.total_amount := by
  unfold addItem
  split <;> rfl

theorem addItem_items_sum (en : ReportEntry) (it : Item) :
    sumBal (addItem en it).items = sumBal en.items + it.cost := by
  unfold addItem
  split <;> simp [sumBal_addTo]

theorem itemsFold_sum : ∀ (its : List Item) (en : ReportEntry),
    sumBal ((its.foldl addItem en).items) =
      sumBal en.items + (its.map Item.cost).sum ∧
    (its.foldl addItem en).total_amount = en.total_amount := by
  intro its
  induction its with
  | nil => intro en; simp
  | cons it its ih =>
    intro en
    rw [List.foldl_cons]
    obtain ⟨h1, h2⟩ := ih (addItem en it)
    constructor
    · rw [h1, addItem_items_sum]
      simp only [List.map_cons, List.sum_cons]
      ring
    · rw [h2, addItem_total_amount]

/-- The item fold preserves the counter invariant `total_items =
number of item entries` together with key distinctness. -/
theorem addItem_counter (en : ReportEntry) (it : Item)
    (h : en.total_items = en.items.length ∧ (en.items.map Prod.fst).Nodup) :
    (addItem en it).total_items = (addItem en it).items.length ∧
    ((addItem en it).items.map Prod.fst).Nodup := by
  unfold addItem
  by_cases hmem : it.item ∈ en.items.map Prod.fst
  · simp only [if_pos hmem]
    have hkeys : ((addTo en.items it.item it.cost).map Prod.fst) =
        en.items.map Prod.fst := keys_setBal_of_mem _ hmem
    constructor
    · have : (addTo en.items it.item it.cost).length = en.items.length := by
        rw [← List.length_map (addTo en.items it.item it.cost) Prod.fst, hkeys,
          List.length_map]
      rw [this]
      exact h.1
    · rw [hkeys]
      exact h.2
  · simp only [if_neg hmem]
    have hkeys : ((addTo en.items it.item it.cost).map Prod.fst) =
        en.items.map Prod.fst ++ [it.item] := keys_setBal_of_not_mem _ hmem
    constructor
    · have : (addTo en.items it.item it.cost).length = en.items.length + 1 := by
        rw [← List.length_map (addTo en.items it.item it.cost) Prod.fst, hkeys]
        simp
      rw [this]
      simp [h.1]
    · rw [hkeys]
      simp [List.nodup_append, h.2, hmem]

theorem itemsFold_counter : ∀ (its : List Item) (en : ReportEntry),
    (en.total_items = en.items.length ∧ (en.items.map Prod.fst).Nodup) →
    ((its.foldl addItem en).total_items = (its.foldl addItem en).items.length ∧
      (((its.foldl addItem en).items).map Prod.fst).Nodup) := by
  intro its
  induction its with
  | nil => intro en h; exact h
  | cons it its ih =>
    intro en h
    rw [List.foldl_cons]
    exact ih _ (addItem_counter en it h)

theorem updEntry_forall (P : ReportEntry → Prop) :
    ∀ (r : List (String × ReportEntry)) (k : String) (f : ReportEntry → ReportEntry),
      (∀ p ∈ r, P p.2) → (∀ en, P en → P (f en)) →
      ∀ p ∈ updEntry r k f, P p.2 := by
  intro r
  induction r with
  | nil => intro k f _ _ p hp; simp [updEntry] at hp
  | cons q r ih =>
    obtain ⟨k', en⟩ := q
    intro k f hall hf p hp
    by_cases hk : k = k'
    · simp only [updEntry, if_pos hk] at hp
      rcases List.mem_cons.mp hp with h | h
      · subst h
        exact hf en (hall (k', en) (List.mem_cons_self _ _))
      · exact hall p (List.mem_cons_of_mem _ h)
    · simp only [updEntry, if_neg hk] at hp
      rcases List.mem_cons.mp hp with h | h
      · subst h
        exact hall (k', en) (List.mem_cons_self _ _)
      · exact ih k f (fun q hq => hall q (List.mem_cons_of_mem _ hq)) hf p h

theorem consumerStep_report_forall (e : Expense) (P : ReportEntry → Prop)
    (hinit : P initEntry) (hf : ∀ en, P en → P (consumerUpd e en))
    (st : WState) (rid : String) (hall : ∀ p ∈ st.report, P p.2) :
    ∀ p ∈ (consumerStep e st rid).report, P p.2 := by
  intro p hp
  have hall0 : ∀ q ∈ (if rid ∈ st.report.map Prod.fst then st.report
      else st.report ++ [(rid, initEntry)]), P q.2 := by
    intro q hq
    split at hq
    · exact hall q hq
    · rcases List.mem_append.mp hq with h | h
      · exact hall q h
      · simp only [List.mem_singleton] at h
        subst h
        exact hinit
  exact updEntry_forall P _ rid (consumerUpd e) hall0 hf p hp

theorem consumerFold_report_forall (e : Expense) (P : ReportEntry → Prop)
    (hinit : P initEntry) (hf : ∀ en, P en → P (consumerUpd e en)) :
    ∀ (l : List String) (st : WState), (∀ p ∈ st.report, P p.2) →
      ∀ p ∈ ((l.foldl (consumerStep e) st).report), P p.2 := by
  intro l
  induction l with
  | nil => intro st hall p hp; exact hall p hp
  | cons r l ih =>
    intro st hall p hp
    rw [List.foldl_cons] at hp
    exact ih _ (consumerStep_report_forall e P hinit hf st r hall) p hp

theorem agg_report_forall (P : ReportEntry → Prop) (hinit : P initEntry)
    (hf : ∀ (e : Expense) en, P en → P (consumerUpd e en)) :
    ∀ (es : List Expense) (st : WState), (∀ p ∈ st.report, P p.2) →
      ∀ p ∈ ((es.foldl expenseStep st).report), P p.2 := by
  intro es
  induction es with
  | nil => intro st hall p hp; exact hall p hp
  | cons e es ih =>
    intro st hall p hp
    rw [List.foldl_cons] at hp
    refine ih _ ?_ p hp
    exact consumerFold_report_forall e P hinit (hf e) e.consumedBy _ hall

/-- C4 (amended): in every report record produced by the aggregation,
the per-item figures sum to the record's `total_amount` — the full
expense total accumulated once per consumed expense — because the item
loop adds each item's *full* cost.  They do not sum to the consumer's
share-based `totalConsumed` (the `consumption` dict): that reading of
the original claim is refuted by `c4_counterexample`. -/
theorem c4_items_sum_total_amount (es : List Expense) :
    ∀ p ∈ (weeklyAgg es).report, sumBal p.2.items = p.2.total_amount := by
  refine agg_report_forall (fun en => sumBal en.items = en.total_amount)
    (by simp [initEntry, sumBal]) ?_ es ⟨[], [], []⟩ (by simp)
  intro e en h
  unfold consumerUpd
  obtain ⟨h1, h2⟩ := itemsFold_sum e.items en
  simp only [h1, h2, h, totalCost]

/-- Witness for `c4_items_sum_total_amount` at the report record of
consumer `a` for a single two-consumer expense. -/
theorem c4_witness :
    sumBal (⟨10, 1, [("x", (10 : ℚ))]⟩ : ReportEntry).items =
      (⟨10, 1, [("x", (10 : ℚ))]⟩ : ReportEntry).total_amount :=
  c4_items_sum_total_amount [⟨[⟨"x", 10⟩], "p", ["a", "b"]⟩]
    ("a", ⟨10, 1, [("x", 10)]⟩)
    (by norm_num +decide [weeklyAgg, expenseStep, consumerStep, consumerUpd,
      addItem, addTo, setBal, lookupBal, updEntry, initEntry, totalCost])

/-- C4 counterexample: one expense with a single item of cost 10 and
two consumers.  Consumer `a`'s item figures sum to 10 (the full cost),
while `a`'s accumulated consumption — `totalConsumed` — is 5, so the
per-item breakdown does not sum to `totalConsumed`. -/
theorem c4_counterexample :
    (weeklyAgg [⟨[⟨"x", 10⟩], "p", ["a", "b"]⟩]).report =
      [("a", ⟨10, 1, [("x", 10)]⟩), ("b", ⟨10, 1, [("x", 10)]⟩)] ∧
    (weeklyAgg [⟨[⟨"x", 10⟩], "p", ["a", "b"]⟩]).consumption =
      [("a", 5), ("b", 5)] ∧
    sumBal [("x", (10 : ℚ))] ≠
      lookupBal [("a", (5 : ℚ)), ("b", 5)] "a" := by
  refine ⟨?_, ?_, by norm_num [sumBal, lookupBal]⟩ <;>
    norm_num +decide [weeklyAgg, expenseStep, consumerStep, consumerUpd,
      addItem, addTo, setBal, lookupBal, updEntry, initEntry, totalCost]

/-- C10: in every report record produced by the aggregation, the
`total_items` counter equals the number of (distinct) item names in the
record's `items` dict: the counter is incremented exactly when a fresh
item name is inserted. -/
theorem c10_total_items_invariant (es : List Expense) :
    ∀ p ∈ (weeklyAgg es).report,
      p.2.total_items = p.2.items.length ∧
      ((p.2.items).map Prod.fst).Nodup := by
  refine agg_report_forall
    (fun en => en.total_items = en.items.length ∧ ((en.items).map Prod.fst).Nodup)
    (by simp [initEntry]) ?_ es ⟨[], [], []⟩ (by simp)
  intro e en h
  unfold consumerUpd
  exact itemsFold_counter e.items en h

/-- Witness for `c10_total_items_invariant`: an expense with a repeated
item name yields a record with two item entries and counter 2. -/
theorem c10_witness :
    (⟨10, 2, [("x", (8 : ℚ)), ("y", 2)]⟩ : ReportEntry).total_items =
      ([("x", (8 : ℚ)), ("y", 2)] : Bal).length ∧
    (([("x", (8 : ℚ)), ("y", 2)] : Bal).map Prod.fst).Nodup :=
  c10_total_items_invariant [⟨[⟨"x", 5⟩, ⟨"x", 3⟩, ⟨"y", 2⟩], "p", ["a"]⟩]
    ("a", ⟨10, 2, [("x", 8), ("y", 2)]⟩)
    (by norm_num +decide [weeklyAgg, expenseStep, consumerStep, consumerUpd,
      addItem, addTo, setBal, lookupBal, updEntry, initEntry, totalCost])

theorem splitInit_keys (roster : List Roommate) :
    (splitInit roster).map Prod.fst = roster.map Roommate.id := by
  simp [splitInit, List.map_map, Function.comp]

theorem keys_updSplit : ∀ (m : SplitMap) (k : String) (v : ℚ),
    (updSplit m k v).map Prod.fst = m.map Prod.fst := by
  intro m
  induction m with
  | nil => intro k v; rfl
  | cons p m ih =>
    obtain ⟨k', en⟩ := p
    intro k v
    by_cases hk : k = k'
    · simp [updSplit, hk]
    · simp [updSplit, hk, ih]

theorem updSplit_mem_of_ne {m : SplitMap} {k k' : String} {en : SplitEntry}
    (v : ℚ) (hne : k ≠ k') (h : (k, en) ∈ m) : (k, en) ∈ updSplit m k' v := by
  induction m with
  | nil => simp at h
  | cons p m ih =>
    obtain ⟨k0, en0⟩ := p
    by_cases hk : k' = k0
    · simp only [updSplit, if_pos hk, List.mem_cons]
      rcases List.mem_cons.mp h with h' | h'
      · exfalso
        have : k = k0 := congrArg Prod.fst h'
        exact hne (this.trans hk.symm)
      · exact Or.inr h'
    · simp only [updSplit, if_neg hk, List.mem_cons]
      rcases List.mem_cons.mp h with h' | h'
      · exact Or.inl h'
      · exact Or.inr (ih h')

/-- When every consumer id is a key of the dict, the consumer loop of
`split_expense` succeeds, preserves the key sequence, and leaves
entries of unvisited keys untouched. -/
theorem splitConsumers_ok (amt : ℚ) : ∀ (rs : List String) (m : SplitMap),
    (∀ r ∈ rs, r ∈ m.map Prod.fst) →
    ∃ m1, splitConsumers amt rs m = .ok m1 ∧
      m1.map Prod.fst = m.map Prod.fst ∧
      (∀ (k : String) (en : SplitEntry), k ∉ rs → (k, en) ∈ m → (k, en) ∈ m1) := by
  intro rs
  induction rs with
  | nil => intro m _; exact ⟨m, rfl, rfl, fun k en _ h => h⟩
  | cons r rs ih =>
    intro m hsub
    have hr : r ∈ m.map Prod.fst := hsub r (List.mem_cons_self r rs)
    obtain ⟨m1, hok, hkeys, hpres⟩ := ih (updSplit m r amt)
      (fun x hx => by rw [keys_updSplit]; exact hsub x (List.mem_cons_of_mem r hx))
    refine ⟨m1, ?_, by rw [hkeys, keys_updSplit], ?_⟩
    · simp only [splitConsumers, if_pos hr]
      exact hok
    · intro k en hk hmem
      have hk1 : k ≠ r := fun h => hk (h ▸ List.mem_cons_self r rs)
      have hk2 : k ∉ rs := fun h => hk (List.mem_cons_of_mem r h)
      exact hpres k en hk2 (updSplit_mem_of_ne amt hk1 hmem)

/-- When every consumer id of every expense is a key of the dict and
every consumer group is nonempty, the expense loop of `split_expense`
succeeds, preserves the key sequence, and leaves the entries of persons
appearing in no consumer group untouched. -/
theorem splitExpenses_ok : ∀ (es : List Expense) (m : SplitMap),
    (∀ e ∈ es, ∀ c ∈ e.consumedBy, c ∈ m.map Prod.fst) →
    (∀ e ∈ es, e.consumedBy ≠ []) →
    ∃ m1, splitExpenses es m = .ok m1 ∧
      m1.map Prod.fst = m.map Prod.fst ∧
      (∀ (k : String) (en : SplitEntry), (∀ e ∈ es, k ∉ e.consumedBy) →
        (k, en) ∈ m → (k, en) ∈ m1) := by
  intro es
  induction es with
  | nil => intro m _ _; exact ⟨m, rfl, rfl, fun k en _ h => h⟩
  | cons e es ih =>
    intro m hsub hne
    have hlen : ¬e.consumedBy.length = 0 := by
      have := hne e (List.mem_cons_self e es)
      simpa [List.length_eq_zero] using this
    obtain ⟨mc, hokc, hkeysc, hpresc⟩ :=
      splitConsumers_ok (totalCost e / (e.consumedBy.length : ℚ)) e.consumedBy m
        (hsub e (List.mem_cons_self e es))
    obtain ⟨m1, hok1, hkeys1, hpres1⟩ := ih mc
      (fun e' he' c hc => by
        rw [hkeysc]
        exact hsub e' (List.mem_cons_of_mem e he') c hc)
      (fun e' he' => hne e' (List.mem_cons_of_mem e he'))
    refine ⟨m1, ?_, by rw [hkeys1, hkeysc], ?_⟩
    · simp only [splitExpenses, if_neg hlen, hokc]
      exact hok1
    · intro k en hk hmem
      refine hpres1 k en (fun e' he' => hk e' (List.mem_cons_of_mem e he')) ?_
      exact hpresc k en (hk e (List.mem_cons_self e es)) hmem

/-- When some expense has an empty consumer group (and all consumer ids
up to that point are known), the expense loop of `split_expense` raises
`ZeroDivisionError`. -/
theorem splitExpenses_zeroDiv : ∀ (es : List Expense) (m : SplitMap),
    (∀ e ∈ es, ∀ c ∈ e.consumedBy, c ∈ m.map Prod.fst) →
    (∃ e ∈ es, e.consumedBy = []) →
    splitExpenses es m = .error .zeroDivisionError := by
  intro es
  induction es with
  | nil => intro m _ hemp; simp at hemp
  | cons e es ih =>
    intro m hsub hemp
    by_cases he : e.consumedBy = []
    · have hlen : e.consumedBy.length = 0 := by simp [he]
      simp only [splitExpenses, if_pos hlen]
    · have hlen : ¬e.consumedBy.length = 0 := by simpa [List.length_eq_zero] using he
      obtain ⟨mc, hokc, hkeysc, -⟩ :=
        splitConsumers_ok (totalCost e / (e.consumedBy.length : ℚ)) e.consumedBy m
          (hsub e (List.mem_cons_self e es))
      have hemp' : ∃ e' ∈ es, e'.consumedBy = [] := by
        obtain ⟨e', he', hc⟩ := hemp
        rcases List.mem_cons.mp he' with h | h
        · exact absurd (h ▸ hc) he
        · exact ⟨e', h, hc⟩
      simp only [splitExpenses, if_neg hlen, hokc]
      exact ih mc
        (fun e' he' c hc => by
          rw [hkeysc]
          exact hsub e' (List.mem_cons_of_mem e he') c hc)
        hemp'

/-- C5 (amended): on an input containing an expense with an empty
consumer group, `split_expense` fails with Python's unstructured
`ZeroDivisionError` — not a structured `EmptyConsumerGroupError`, which
the source never raises — while the `weekly_report` aggregation does
not fail at all: the division sits inside the consumer loop, which an
empty group skips, so the expense silently contributes only to the
purchaser's spending. -/
theorem c5_empty_group_behavior (es : List Expense) (roster : List Roommate)
    (hcons : ∀ e ∈ es, ∀ c ∈ e.consumedBy, c ∈ roster.map Roommate.id)
    (hemp : ∃ e ∈ es, e.consumedBy = []) :
    split_expense es roster = .error .zeroDivisionError ∧
    ∀ (st : WState) (e : Expense), e.consumedBy = [] →
      (expenseStep st e).report = st.report ∧
      (expenseStep st e).consumption = st.consumption := by
  constructor
  · refine splitExpenses_zeroDiv es (splitInit roster) ?_ hemp
    intro e he c hc
    rw [splitInit_keys]
    exact hcons e he c hc
  · intro st e he
    rw [expenseStep, he]
    exact ⟨rfl, rfl⟩

/-- Witness for `c5_empty_group_behavior` at a one-expense input with
an empty consumer group. -/
theorem c5_witness :
    split_expense [⟨[⟨"x", (10 : ℚ)⟩], "a", []⟩] [⟨"a", "A"⟩] =
      .error .zeroDivisionError ∧
    ∀ (st : WState) (e : Expense), e.consumedBy = [] →
      (expenseStep st e).report = st.report ∧
      (expenseStep st e).consumption = st.consumption :=
  c5_empty_group_behavior [⟨[⟨"x", (10 : ℚ)⟩], "a", []⟩] [⟨"a", "A"⟩]
    (by decide) (by decide)

/-- C5 counterexample: on the empty-group expense the source's
`split_expense` returns `ZeroDivisionError`, which is not the claimed
`EmptyConsumerGroupError`; and the `weekly_report` aggregation of the
same input fails in no way — it produces a normal state whose report
and consumption are empty while the purchaser's spending records the
full total. -/
theorem c5_counterexample :
    split_expense [⟨[⟨"x", (10 : ℚ)⟩], "a", []⟩] [⟨"a", "A"⟩] =
      .error .zeroDivisionError ∧
    (Except.error PyErr.zeroDivisionError : Except PyErr SplitMap) ≠
      .error .emptyConsumerGroupError ∧
    (weeklyAgg [⟨[⟨"x", (10 : ℚ)⟩], "a", []⟩]).report = [] ∧
    (weeklyAgg [⟨[⟨"x", (10 : ℚ)⟩], "a", []⟩]).consumption = [] ∧
    (weeklyAgg [⟨[⟨"x", (10 : ℚ)⟩], "a", []⟩]).spending = [("a", 10)] := by
  refine ⟨by rfl, by simp, by rfl, by rfl, ?_⟩
  norm_num +decide [weeklyAgg, expenseStep, addTo, setBal, lookupBal, totalCost]

/-- C9: for a roster with distinct ids and an expense list whose
consumer ids all come from the roster (each group nonempty — the data
model's invariants), `split_expense` yields a dict with exactly one
entry per roster member, in roster order, and a member consumed by no
expense keeps the freshly initialized amount 0. -/
theorem c9_roster_coverage (es : List Expense) (roster : List Roommate)
    (_hnd : (roster.map Roommate.id).Nodup)
    (h1 : ∀ e ∈ es, ∀ c ∈ e.consumedBy, c ∈ roster.map Roommate.id)
    (h2 : ∀ e ∈ es, e.consumedBy ≠ []) :
    ∃ m, split_expense es roster = .ok m ∧
      m.map Prod.fst = roster.map Roommate.id ∧
      ∀ r ∈ roster, (∀ e ∈ es, r.id ∉ e.consumedBy) →
        (r.id, ⟨r.name, 0⟩) ∈ m := by
  obtain ⟨m1, hok, hkeys, hpres⟩ := splitExpenses_ok es (splitInit roster)
    (fun e he c hc => by rw [splitInit_keys]; exact h1 e he c hc) h2
  refine ⟨m1, hok, by rw [hkeys, splitInit_keys], ?_⟩
  intro r hr hin
  refine hpres r.id ⟨r.name, 0⟩ hin ?_
  exact List.mem_map_of_mem (fun r => (r.id, (⟨r.name, 0⟩ : SplitEntry))) hr

/-- Witness for `c9_roster_coverage`: roster `{a, z}` with one expense
consumed only by `a`; `z` appears with amount 0. -/
theorem c9_witness :
    ∃ m, split_expense [⟨[⟨"x", (10 : ℚ)⟩], "a", ["a"]⟩]
        [⟨"a", "A"⟩, ⟨"z", "Z"⟩] = .ok m ∧
      m.map Prod.fst = ([⟨"a", "A"⟩, ⟨"z", "Z"⟩] : List Roommate).map Roommate.id ∧
      ∀ r ∈ ([⟨"a", "A"⟩, ⟨"z", "Z"⟩] : List Roommate),
        (∀ e ∈ [⟨[⟨"x", (10 : ℚ)⟩], "a", ["a"]⟩], Roommate.id r ∉ Expense.consumedBy e) →
        (r.id, ⟨r.name, 0⟩) ∈ m :=
  c9_roster_coverage [⟨[⟨"x", (10 : ℚ)⟩], "a", ["a"]⟩] [⟨"a", "A"⟩, ⟨"z", "Z"⟩]
    (by decide) (by decide) (by decide)

end Wems
